import Mathlib

/-!
Verification of the colour-line parser/rewriter of `rods-terminal-colours`
(`src/rtc/src/colours.rs`, with duplicated logic in `src/rtc/src/main.rs`).

Rust strings are modelled as `List Char`.  All byte indices used by the
source (`key.len()`, `find('#')`, slice bounds) fall on boundaries of
ASCII characters on every path that matters, so character positions and
byte positions coincide and the `List Char` model is faithful.
-/

namespace Rtc

/-- A Rust string, modelled as its list of characters. -/
abbrev RStr := List Char

/-- Coercion from a Lean string literal to the model. -/
def str (s : String) : RStr := s.toList

/-- Rust `char::is_whitespace` (the Unicode `White_Space` property),
used by `trim`, `trim_start` and `trim_end` in the source. -/
def rustIsWhitespace (c : Char) : Bool :=
  let n := c.toNat
  n = 0x20 || (0x9 ≤ n && n ≤ 0xD) || n = 0x85 || n = 0xA0 || n = 0x1680 ||
  (0x2000 ≤ n && n ≤ 0x200A) || n = 0x2028 || n = 0x2029 || n = 0x202F ||
  n = 0x205F || n = 0x3000

/-- Rust `char::is_ascii_hexdigit`: `0`..`9`, `a`..`f`, `A`..`F`. -/
def isAsciiHexDigit (c : Char) : Bool :=
  let n := c.toNat
  (0x30 ≤ n && n ≤ 0x39) || (0x61 ≤ n && n ≤ 0x66) || (0x41 ≤ n && n ≤ 0x46)

/-- The acceptance test `hex_code.len() == 6 && hex_code.chars().all(|c| c.is_ascii_hexdigit())`
from `colours.rs:60`.  (When all characters are ASCII hex digits the Rust byte
length equals the character count, so `List.length` is faithful here.) -/
def isValidHex (v : RStr) : Bool :=
  v.length = 6 && v.all isAsciiHexDigit

/-- Rust `str::trim_start`. -/
def rustTrimStart (l : RStr) : RStr := l.dropWhile rustIsWhitespace

/-- Rust `str::trim_end`. -/
def rustTrimEnd (l : RStr) : RStr := (l.reverse.dropWhile rustIsWhitespace).reverse

/-- Rust `str::trim`. -/
def rustTrim (l : RStr) : RStr := rustTrimEnd (rustTrimStart l)

/-- Drop a single trailing carriage return, as Rust `str::lines` does on
every `\n`-terminated piece. -/
def stripCR (l : RStr) : RStr :=
  if l.getLast? = some '\r' then l.dropLast else l

/-- Split on `'\n'`, keeping every piece (Rust `str::split('\n')`);
the result is always non-empty. -/
def splitNL : RStr → List RStr
  | [] => [[]]
  | c :: cs =>
    if c = '\n' then [] :: splitNL cs
    else
      match splitNL cs with
      | [] => [[c]]
      | p :: ps => (c :: p) :: ps

/-- Assemble Rust `str::lines` from the split pieces: every `\n`-terminated
piece loses one trailing `\r`; the final piece is kept verbatim unless empty. -/
def rustLinesAux : List RStr → List RStr
  | [] => []
  | [p] => if p = [] then [] else [p]
  | p :: ps => stripCR p :: rustLinesAux ps

/-- Rust `str::lines()` as used on the config file content. -/
def rustLines (cs : RStr) : List RStr := rustLinesAux (splitNL cs)

/-- `COLOUR_KEYS` from `colours.rs:32`. -/
def COLOUR_KEYS : List RStr :=
  [str "foreground", str "background", str "cursor",
   str "color0", str "color1", str "color2", str "color3", str "color4",
   str "color5", str "color6", str "color7", str "color8", str "color9",
   str "color10", str "color11", str "color12", str "color13", str "color14",
   str "color15"]

/-- The Rust `HashMap<String, String>`, modelled as an association list;
all observations go through `pmLookup`. -/
abbrev PaletteMap := List (RStr × RStr)

/-- `HashMap::get` (first binding wins; `pmInsert`-style prepending makes the
latest insertion shadow older ones, as in the hash map). -/
def pmLookup : PaletteMap → RStr → Option RStr
  | [], _ => none
  | (k, v) :: m, key => if k = key then some v else pmLookup m key

/-- Equality of palette maps as maps (the only equality the program can observe). -/
def pmEq (a b : PaletteMap) : Prop := ∀ k, pmLookup a k = pmLookup b k

/-- The line-match test shared (verbatim, duplicated) by extraction
(`colours.rs:50-58`, on the fully trimmed line) and substitution
(`colours.rs:81-85`, on the start-trimmed line): the key is a literal
prefix of `t`, the rest of `t` contains a `#`, and everything between the
key and the first `#` is whitespace. -/
def tsMatches (key t : RStr) : Bool :=
  key.isPrefixOf t &&
    ((t.drop key.length).contains '#' &&
      (rustTrim ((t.drop key.length).takeWhile (fun c => c ≠ '#'))).isEmpty)

/-- `remaining_line[hash_pos + 1..].trim()` from `colours.rs:59`. -/
def hexAfterHash (rem : RStr) : RStr :=
  rustTrim ((rem.dropWhile (fun c => c ≠ '#')).drop 1)

/-- The inner key loop of `extract_current_colours` (`colours.rs:49-67`):
first key that matches *and* carries a valid 6-hex-digit value wins
(`break` happens only on insertion); on any failed condition the loop
merely continues with the next key. -/
def extractScan (t : RStr) : List RStr → Option (RStr × RStr)
  | [] => none
  | key :: ks =>
    if key.isPrefixOf t then
      if (t.drop key.length).contains '#' &&
          (rustTrim ((t.drop key.length).takeWhile (fun c => c ≠ '#'))).isEmpty then
        if isValidHex (hexAfterHash (t.drop key.length)) then
          some (key, hexAfterHash (t.drop key.length))
        else extractScan t ks
      else extractScan t ks
    else extractScan t ks

/-- What `extract_current_colours` records for one line: nothing for blank
lines and lines whose trimmed form starts with `#` (`colours.rs:44-46`),
otherwise the result of the key scan. -/
def extractLineKey (line : RStr) : Option (RStr × RStr) :=
  match rustTrim line with
  | [] => none
  | c :: t =>
    if c = '#' then none
    else extractScan (c :: t) COLOUR_KEYS

/-- One step of the extraction fold (`current_colours.insert(...)`). -/
def extractLine (acc : PaletteMap) (line : RStr) : PaletteMap :=
  match extractLineKey line with
  | some kv => kv :: acc
  | none => acc

/-- `extract_current_colours` (`colours.rs:38-70`), as a function of the
file content. -/
def extract_current_colours (content : RStr) : PaletteMap :=
  (rustLines content).foldl extractLine []

/-- The match test of the substitution loop (`colours.rs:81-85`),
performed on `line.trim_start()`. -/
def updateMatches (key line : RStr) : Bool :=
  tsMatches key (rustTrimStart line)

/-- The key selected by the substitution loop for a line: the first of
`COLOUR_KEYS` passing `updateMatches` (`break` at `colours.rs:89`). -/
def findUpdateKey (line : RStr) : List RStr → Option RStr
  | [] => none
  | key :: ks => if updateMatches key line then some key else findUpdateKey line ks

/-- The replacement line built at `colours.rs:86-87`:
`format!("{} #{}", prefix.trim_end(), v)` where
`prefix = &line[..line.len() - remaining_after_key.len()]`
(the trailing `\n` of the `format!` is appended by `updateLine`). -/
def rewriteLine (line key v : RStr) : RStr :=
  rustTrimEnd
      (line.take (line.length - ((rustTrimStart line).drop key.length).length)) ++
    ' ' :: '#' :: v

/-- What the substitution loop pushes for one line (`colours.rs:77-97`).
`none` models the Rust panic of the `colours_to_apply[key]` index when the
matched key is absent from the map: the process aborts and nothing is written. -/
def updateLine (m : PaletteMap) (line : RStr) : Option RStr :=
  match findUpdateKey line COLOUR_KEYS with
  | none => some (line ++ ['\n'])
  | some key =>
    match pmLookup m key with
    | some v => some (rewriteLine line key v ++ ['\n'])
    | none => none

/-- The whole line loop plus `join("")` of `update_kitty_config_with_colours`. -/
def updateAll (m : PaletteMap) : List RStr → Option RStr
  | [] => some []
  | l :: ls =>
    match updateLine m l, updateAll m ls with
    | some a, some b => some (a ++ b)
    | _, _ => none

/-- `update_kitty_config_with_colours` (`colours.rs:72-106`) as a function
from the current file content and the palette map to the new file content;
`none` models the panic on a recognized line whose key the map lacks. -/
def update_kitty_config_with_colours (content : RStr) (m : PaletteMap) : Option RStr :=
  updateAll m (rustLines content)

/-- Concatenation of lines, each terminated by `\n` — the shape of the
substitution routine's output. -/
def joinNL (ls : List RStr) : RStr :=
  ls.foldr (fun l acc => l ++ '\n' :: acc) []

/-- The successful per-line result of substitution, used to describe the
output of `update_kitty_config_with_colours` in the theorems below
(it is `updateLine` stripped of the trailing `\n` and of the panic case). -/
def applyLineMap (m : PaletteMap) (line : RStr) : RStr :=
  match findUpdateKey line COLOUR_KEYS with
  | none => line
  | some key => rewriteLine line key ((pmLookup m key).getD [])

/-- The key-selection rule shared by `apply_random_colours_to_kitty`
(`colours.rs:199-203`) and `shuffle_current_colours` (`colours.rs:260-264`):
with a non-empty force list exactly its members participate; otherwise all
keys not on the exception list do. -/
def selectedKey (forced excluded : List RStr) (k : RStr) : Bool :=
  if forced.isEmpty then !(excluded.contains k) else forced.contains k

/-- `shufflable_keys_full_names` (`colours.rs:257-271`): the selected keys
that currently have a known value, in `COLOUR_KEYS` order. -/
def shufflableKeys (current : PaletteMap) (forced excluded : List RStr) : List RStr :=
  COLOUR_KEYS.filter (fun k => selectedKey forced excluded k && (pmLookup current k).isSome)

/-- `fixed_colours_map` (`colours.rs:272-279`): unselected keys keep their
current value, defaulting to `000000` when missing. -/
def fixedMap (current : PaletteMap) (forced excluded : List RStr) : PaletteMap :=
  (COLOUR_KEYS.filter (fun k => !(selectedKey forced excluded k))).map
    (fun k => (k, (pmLookup current k).getD (str "000000")))

/-- `shufflable_hex_values` before the shuffle (`colours.rs:287-292`). -/
def shufflableHexValues (current : PaletteMap) (forced excluded : List RStr) : List RStr :=
  (shufflableKeys current forced excluded).map
    (fun k => (pmLookup current k).getD (str "000000"))

/-- The second loop of `shuffle_current_colours` (`colours.rs:301-315`):
walk `COLOUR_KEYS`; fixed keys take their fixed value, the rest consume the
shuffled values in order, defaulting to `000000` when the values run out. -/
def assignShuffled (fixed : PaletteMap) (vals : List RStr) : List RStr → PaletteMap
  | [] => []
  | k :: ks =>
    match pmLookup fixed k with
    | some v => (k, v) :: assignShuffled fixed vals ks
    | none =>
      match vals with
      | v :: vs => (k, v) :: assignShuffled fixed vs ks
      | [] => (k, str "000000") :: assignShuffled fixed [] ks

/-- `shuffle_current_colours` (`colours.rs:242-323`) as a function of the
config file content, the resolved force/exception key lists, and the value
list produced by the random shuffle (the rng is modelled by passing the
shuffled `shufflable_hex_values` as the parameter `shuffledVals`; theorems
constrain it to be a permutation where that matters).  `none` is the
fewer-than-two-eligible-keys early return: a warning and no file write. -/
def shuffle_current_colours (content : RStr) (forced excluded shuffledVals : List RStr) :
    Option PaletteMap :=
  let current := extract_current_colours content
  if (shufflableKeys current forced excluded).length < 2 then none
  else some (assignShuffled (fixedMap current forced excluded) shuffledVals COLOUR_KEYS)

/-- Modelled from the spec: the explicit-set operation of section 4.6.  Its
handler is not in `src/` (only the `--set-colour`, `--force` and
`--hex-values` flag declarations in `cli.rs` are); per the spec it takes a
parallel list of resolved keys and of hex values, aborts with no write
(`none`) when the lengths differ, when a key is unknown or when a hex value
is malformed, and otherwise applies exactly those overrides. -/
def set_colour_operation (keys hexes : List RStr) : Option PaletteMap :=
  if keys.length ≠ hexes.length then none
  else if keys.all (fun k => COLOUR_KEYS.contains k) && hexes.all isValidHex then
    some (keys.zip hexes)
  else none

/-- Well-formedness of a colour key as used by the proofs: non-empty, and
every character is printable non-whitespace, distinct from `\n`, `\r`, `#`. -/
def keyWellFormed (k : RStr) : Bool :=
  !k.isEmpty &&
    k.all (fun c => !rustIsWhitespace c && !(c == '\n') && !(c == '\r') && !(c == '#'))

/-! ### Character and trimming lemmas -/

theorem contains_iff_mem {l : RStr} {a : Char} : l.contains a = true ↔ a ∈ l :=
  List.elem_iff

theorem hexDigit_ranges {c : Char} (h : isAsciiHexDigit c = true) :
    (0x30 ≤ c.toNat ∧ c.toNat ≤ 0x39) ∨ (0x61 ≤ c.toNat ∧ c.toNat ≤ 0x66) ∨
    (0x41 ≤ c.toNat ∧ c.toNat ≤ 0x46) := by
  have h2 : ((0x30 ≤ c.toNat ∧ c.toNat ≤ 0x39) ∨ (0x61 ≤ c.toNat ∧ c.toNat ≤ 0x66)) ∨
      (0x41 ≤ c.toNat ∧ c.toNat ≤ 0x46) := by
    simpa [isAsciiHexDigit, Bool.or_eq_true, Bool.and_eq_true, decide_eq_true_eq] using h
  tauto

theorem ws_ranges {c : Char} (h : rustIsWhitespace c = true) :
    c.toNat = 0x20 ∨ (0x9 ≤ c.toNat ∧ c.toNat ≤ 0xD) ∨ c.toNat = 0x85 ∨
    c.toNat = 0xA0 ∨ c.toNat = 0x1680 ∨ (0x2000 ≤ c.toNat ∧ c.toNat ≤ 0x200A) ∨
    c.toNat = 0x2028 ∨ c.toNat = 0x2029 ∨ c.toNat = 0x202F ∨ c.toNat = 0x205F ∨
    c.toNat = 0x3000 := by
  have h2 : (((((((((c.toNat = 0x20 ∨ (0x9 ≤ c.toNat ∧ c.toNat ≤ 0xD)) ∨ c.toNat = 0x85) ∨
      c.toNat = 0xA0) ∨ c.toNat = 0x1680) ∨ (0x2000 ≤ c.toNat ∧ c.toNat ≤ 0x200A)) ∨
      c.toNat = 0x2028) ∨ c.toNat = 0x2029) ∨ c.toNat = 0x202F) ∨ c.toNat = 0x205F) ∨
      c.toNat = 0x3000 := by
    simpa [rustIsWhitespace, Bool.or_eq_true, Bool.and_eq_true, decide_eq_true_eq] using h
  tauto

theorem hexDigit_not_ws {c : Char} (h : isAsciiHexDigit c = true) :
    rustIsWhitespace c = false := by
  cases hw : rustIsWhitespace c
  · rfl
  · exfalso
    have h1 := hexDigit_ranges h
    have h2 := ws_ranges hw
    omega

theorem hexDigit_ne {c : Char} (h : isAsciiHexDigit c = true) :
    c ≠ '\n' ∧ c ≠ '\r' ∧ c ≠ '#' := by
  refine ⟨?_, ?_, ?_⟩ <;> rintro rfl <;> exact absurd h (by decide)

theorem keys_wellFormed : COLOUR_KEYS.all keyWellFormed = true := by decide

theorem key_chars {k : RStr} (hk : k ∈ COLOUR_KEYS) :
    k ≠ [] ∧ ∀ c ∈ k, rustIsWhitespace c = false ∧ c ≠ '\n' ∧ c ≠ '\r' ∧ c ≠ '#' := by
  have h := List.all_eq_true.mp keys_wellFormed k hk
  unfold keyWellFormed at h
  rw [Bool.and_eq_true, List.all_eq_true] at h
  refine ⟨by simpa using h.1, fun c hc => ?_⟩
  have h2 := h.2 c hc
  simp only [Bool.and_eq_true, Bool.not_eq_true', beq_eq_false_iff_ne, ne_eq] at h2
  exact ⟨h2.1.1.1, h2.1.1.2, h2.1.2, h2.2⟩

theorem trimStart_cons_neg {c : Char} (l : RStr) (h : rustIsWhitespace c = false) :
    rustTrimStart (c :: l) = c :: l := by
  simp [rustTrimStart, List.dropWhile_cons, h]

theorem trimEnd_concat_neg {c : Char} (l : RStr) (h : rustIsWhitespace c = false) :
    rustTrimEnd (l ++ [c]) = l ++ [c] := by
  simp [rustTrimEnd, List.reverse_append, List.dropWhile_cons, h]

theorem trimEnd_prefix (l : RStr) : rustTrimEnd l <+: l := by
  unfold rustTrimEnd
  have h : List.dropWhile rustIsWhitespace l.reverse <:+ l.reverse :=
    List.dropWhile_suffix _
  have h2 := List.reverse_prefix.mpr h
  simpa using h2

theorem trimEnd_eq_nil_iff (l : RStr) :
    rustTrimEnd l = [] ↔ ∀ c ∈ l, rustIsWhitespace c = true := by
  unfold rustTrimEnd
  rw [List.reverse_eq_nil_iff, List.dropWhile_eq_nil_iff]
  constructor
  · intro h c hc
    exact h c (List.mem_reverse.mpr hc)
  · intro h c hc
    exact h c (List.mem_reverse.mp hc)

theorem rustTrim_cons_ne_nil {c : Char} (l : RStr) (h : rustIsWhitespace c = false) :
    rustTrim (c :: l) ≠ [] := by
  unfold rustTrim
  rw [trimStart_cons_neg l h]
  intro hnil
  have := (trimEnd_eq_nil_iff _).mp hnil c (by simp)
  rw [h] at this
  cases this

theorem trimStart_append_ws {w : RStr} (l : RStr)
    (h : ∀ c ∈ w, rustIsWhitespace c = true) :
    rustTrimStart (w ++ l) = rustTrimStart l := by
  induction w with
  | nil => simp
  | cons c w ih =>
    rw [List.cons_append]
    show List.dropWhile rustIsWhitespace (c :: (w ++ l)) = _
    rw [List.dropWhile_cons, if_pos (h c (by simp))]
    exact ih fun x hx => h x (by simp [hx])

theorem line_decomp (l : RStr) :
    l.takeWhile rustIsWhitespace ++ rustTrimStart l = l :=
  List.takeWhile_append_dropWhile rustIsWhitespace l

theorem trimStart_head_not_ws {l : RStr} {c : Char} {cs : RStr}
    (h : rustTrimStart l = c :: cs) : rustIsWhitespace c = false := by
  induction l with
  | nil => cases h
  | cons a l ih =>
    unfold rustTrimStart at h
    rw [List.dropWhile_cons] at h
    by_cases ha : rustIsWhitespace a
    · rw [if_pos ha] at h
      exact ih h
    · rw [if_neg ha] at h
      cases h
      simpa using ha

/-! ### The line-match predicate -/

theorem tsMatches_iff {key t : RStr} :
    tsMatches key t = true ↔
      key <+: t ∧ '#' ∈ t.drop key.length ∧
        rustTrim ((t.drop key.length).takeWhile (fun c => c ≠ '#')) = [] := by
  unfold tsMatches
  rw [Bool.and_eq_true, Bool.and_eq_true, List.isPrefixOf_iff_prefix, contains_iff_mem,
    List.isEmpty_iff]

theorem takeWhile_hash_append {l : RStr} (r : RStr) (h : '#' ∈ l) :
    (l ++ r).takeWhile (fun c => c ≠ '#') = l.takeWhile (fun c => c ≠ '#') := by
  induction l with
  | nil => cases h
  | cons c l ih =>
    by_cases hc : c = '#'
    · subst hc
      simp [List.takeWhile_cons]
    · rcases List.mem_cons.mp h with h1 | h1
      · exact absurd h1.symm hc
      · have ih2 := ih h1
        simp only [ne_eq, decide_not] at ih2
        simp [List.takeWhile_cons, hc, ih2]

theorem key_prefix_cases : ∀ k1 ∈ COLOUR_KEYS, ∀ k2 ∈ COLOUR_KEYS, k1 ≠ k2 →
    k1.isPrefixOf k2 = true →
    ((k2.drop k1.length).take 1).all
        (fun c => !rustIsWhitespace c && !(c == '#')) = true ∧
      k2.drop k1.length ≠ [] := by decide

theorem tsMatches_proper_prefix_absurd {short long t : RStr}
    (hs : short ∈ COLOUR_KEYS) (hl : long ∈ COLOUR_KEYS) (hne : short ≠ long)
    (hp : short <+: long) (hlt : long <+: t)
    (hws : rustTrim ((t.drop short.length).takeWhile (fun c => c ≠ '#')) = []) :
    False := by
  have hpre := key_prefix_cases short hs long hl hne (List.isPrefixOf_iff_prefix.mpr hp)
  obtain ⟨r, hr⟩ := hlt
  have hlen : short.length ≤ long.length := hp.length_le
  have hdrop : t.drop short.length = long.drop short.length ++ r := by
    rw [← hr, List.drop_append_of_le_length hlen]
  rcases hd : long.drop short.length with _ | ⟨c, cr⟩
  · exact hpre.2 hd
  · have hc : rustIsWhitespace c = false ∧ c ≠ '#' := by
      have h1 := hpre.1
      rw [hd] at h1
      simpa using h1
  -- the character after the short key inside the long key is neither
  -- whitespace nor '#', so the between-key-and-hash region is not blank
    rw [hdrop, hd, List.cons_append, List.takeWhile_cons] at hws
    rw [if_pos (by simpa using hc.2)] at hws
    exact rustTrim_cons_ne_nil _ hc.1 hws

theorem tsMatches_unique {t k1 k2 : RStr} (h1 : k1 ∈ COLOUR_KEYS)
    (h2 : k2 ∈ COLOUR_KEYS) (m1 : tsMatches k1 t = true)
    (m2 : tsMatches k2 t = true) : k1 = k2 := by
  by_contra hne
  obtain ⟨p1, hash1, ws1⟩ := tsMatches_iff.mp m1
  obtain ⟨p2, hash2, ws2⟩ := tsMatches_iff.mp m2
  rcases List.prefix_or_prefix_of_prefix p1 p2 with hp | hp
  · exact tsMatches_proper_prefix_absurd h1 h2 hne hp p2 ws1
  · exact tsMatches_proper_prefix_absurd h2 h1 (Ne.symm hne) hp p1 ws2

theorem tsMatches_of_trimEnd {k s : RStr} (h : tsMatches k (rustTrimEnd s) = true) :
    tsMatches k s = true := by
  obtain ⟨hp, hhash, hws⟩ := tsMatches_iff.mp h
  obtain ⟨u, hu⟩ := trimEnd_prefix s
  have hlen : k.length ≤ (rustTrimEnd s).length := hp.length_le
  have hdrop : s.drop k.length = (rustTrimEnd s).drop k.length ++ u := by
    conv_lhs => rw [← hu]
    rw [List.drop_append_of_le_length hlen]
  apply tsMatches_iff.mpr
  refine ⟨hp.trans ⟨u, hu⟩, ?_, ?_⟩
  · rw [hdrop]
    exact List.mem_append.mpr (Or.inl hhash)
  · rw [hdrop, takeWhile_hash_append u hhash]
    exact hws

/-! ### The scanning loops -/

theorem findUpdateKey_none_iff {line : RStr} {ks : List RStr} :
    findUpdateKey line ks = none ↔ ∀ k ∈ ks, updateMatches k line = false := by
  induction ks with
  | nil => simp [findUpdateKey]
  | cons k ks ih =>
    by_cases h : updateMatches k line
    · simp [findUpdateKey, h]
    · rw [Bool.not_eq_true] at h
      simp [findUpdateKey, h, ih]

theorem findUpdateKey_some {line k : RStr} {ks : List RStr}
    (h : findUpdateKey line ks = some k) :
    k ∈ ks ∧ updateMatches k line = true := by
  induction ks with
  | nil => cases h
  | cons k0 ks ih =>
    rw [findUpdateKey] at h
    by_cases h0 : updateMatches k0 line
    · rw [if_pos h0] at h
      cases h
      exact ⟨by simp, h0⟩
    · rw [if_neg h0] at h
      obtain ⟨hm, hu⟩ := ih h
      exact ⟨by simp [hm], hu⟩

theorem findUpdateKey_eq_some {line k : RStr} (hk : k ∈ COLOUR_KEYS)
    (hm : updateMatches k line = true) :
    findUpdateKey line COLOUR_KEYS = some k := by
  have main : ∀ ks : List RStr, (∀ x ∈ ks, x ∈ COLOUR_KEYS) → k ∈ ks →
      findUpdateKey line ks = some k := by
    intro ks
    induction ks with
    | nil => intro _ h; cases h
    | cons k0 ks ih =>
      intro hsub hmem
      by_cases h0 : updateMatches k0 line
      · have he : k0 = k := tsMatches_unique (hsub k0 (by simp)) hk h0 hm
        rw [findUpdateKey, if_pos h0, he]
      · have hne : k ≠ k0 := fun he => h0 (he ▸ hm)
        rw [findUpdateKey, if_neg h0]
        rcases List.mem_cons.mp hmem with he | hmem2
        · exact absurd he hne
        · exact ih (fun x hx => hsub x (by simp [hx])) hmem2
  exact main COLOUR_KEYS (fun x hx => hx) hk

theorem extractScan_skip {t k : RStr} {ks : List RStr} (h : tsMatches k t = false) :
    extractScan t (k :: ks) = extractScan t ks := by
  unfold tsMatches at h
  rw [extractScan]
  by_cases h1 : k.isPrefixOf t
  · rw [h1, Bool.true_and] at h
    rw [if_pos h1, if_neg (by rw [h]; exact Bool.false_ne_true)]
  · rw [if_neg (by rw [Bool.not_eq_true] at h1 ⊢; exact h1)]

theorem extractScan_some {t : RStr} {ks : List RStr} {k v : RStr}
    (h : extractScan t ks = some (k, v)) :
    k ∈ ks ∧ tsMatches k t = true ∧ v = hexAfterHash (t.drop k.length) ∧
      isValidHex v = true := by
  induction ks with
  | nil => cases h
  | cons k0 ks ih =>
    by_cases hm : tsMatches k0 t
    · have hm' := hm
      unfold tsMatches at hm'
      rw [Bool.and_eq_true] at hm'
      rw [extractScan, if_pos hm'.1] at h
      by_cases hv : isValidHex (hexAfterHash (t.drop k0.length))
      · rw [if_pos hm'.2, if_pos hv] at h
        cases h
        exact ⟨by simp, hm, rfl, hv⟩
      · rw [if_pos hm'.2, if_neg hv] at h
        obtain ⟨ha, hb, hc, hd⟩ := ih h
        exact ⟨by simp [ha], hb, hc, hd⟩
    · rw [Bool.not_eq_true] at hm
      rw [extractScan_skip hm] at h
      obtain ⟨ha, hb, hc, hd⟩ := ih h
      exact ⟨by simp [ha], hb, hc, hd⟩

theorem extractScan_none {t : RStr} {ks : List RStr}
    (h : ∀ k ∈ ks, tsMatches k t = false) : extractScan t ks = none := by
  induction ks with
  | nil => rfl
  | cons k0 ks ih =>
    rw [extractScan_skip (h k0 (by simp))]
    exact ih fun k hk => h k (by simp [hk])

theorem extractScan_finds {t k : RStr} {ks : List RStr}
    (hsub : ∀ x ∈ ks, x ∈ COLOUR_KEYS) (hk : k ∈ ks) (hkK : k ∈ COLOUR_KEYS)
    (hm : tsMatches k t = true)
    (hv : isValidHex (hexAfterHash (t.drop k.length)) = true) :
    extractScan t ks = some (k, hexAfterHash (t.drop k.length)) := by
  induction ks with
  | nil => cases hk
  | cons k0 ks ih =>
    by_cases h0 : tsMatches k0 t
    · have he : k0 = k := tsMatches_unique (hsub k0 (by simp)) hkK h0 hm
      subst he
      have h0' := h0
      unfold tsMatches at h0'
      rw [Bool.and_eq_true] at h0'
      rw [extractScan, if_pos h0'.1, if_pos h0'.2, if_pos hv]
    · rw [Bool.not_eq_true] at h0
      rw [extractScan_skip h0]
      have hne : k ≠ k0 := fun he => by rw [he] at hm; rw [hm] at h0; cases h0
      rcases List.mem_cons.mp hk with he | hk2
      · exact absurd he hne
      · exact ih (fun x hx => hsub x (by simp [hx])) hk2

theorem extract_accept_match {line k v : RStr} (h : extractLineKey line = some (k, v)) :
    updateMatches k line = true ∧ k ∈ COLOUR_KEYS ∧ isValidHex v = true := by
  unfold extractLineKey at h
  split at h
  · cases h
  · rename_i c t heq
    by_cases hc : c = '#'
    · rw [if_pos hc] at h
      cases h
    · rw [if_neg hc] at h
      obtain ⟨hmem, hts, _, hvv⟩ := extractScan_some h
      have hts2 : tsMatches k (rustTrim line) = true := by rw [heq]; exact hts
      exact ⟨tsMatches_of_trimEnd hts2, hmem, hvv⟩

/-! ### Line splitting and joining -/

theorem splitNL_ne_nil (cs : RStr) : splitNL cs ≠ [] := by
  cases cs with
  | nil => simp [splitNL]
  | cons c cs =>
    unfold splitNL
    by_cases h : c = '\n'
    · simp [h]
    · rw [if_neg h]
      rcases hsp : splitNL cs with _ | ⟨p, ps⟩ <;> simp

theorem splitNL_no_nl {cs : RStr} : ∀ p ∈ splitNL cs, '\n' ∉ p := by
  induction cs with
  | nil =>
    intro p hp
    simp only [splitNL, List.mem_singleton] at hp
    subst hp
    simp
  | cons c cs ih =>
    unfold splitNL
    by_cases h : c = '\n'
    · rw [if_pos h]
      intro p hp
      rcases List.mem_cons.mp hp with rfl | hp2
      · simp
      · exact ih p hp2
    · rw [if_neg h]
      rcases hsp : splitNL cs with _ | ⟨q, qs⟩
      · exact absurd hsp (splitNL_ne_nil cs)
      · intro p hp
        rcases List.mem_cons.mp hp with rfl | hp2
        · intro hmem
          rcases List.mem_cons.mp hmem with he | hm2
          · exact h he.symm
          · exact ih q (by rw [hsp]; simp) hm2
        · exact ih p (by rw [hsp]; simp [hp2])

theorem splitNL_subset {cs : RStr} : ∀ p ∈ splitNL cs, ∀ c ∈ p, c ∈ cs := by
  induction cs with
  | nil =>
    intro p hp c hc
    simp only [splitNL, List.mem_singleton] at hp
    subst hp
    cases hc
  | cons a cs ih =>
    unfold splitNL
    by_cases h : a = '\n'
    · rw [if_pos h]
      intro p hp c hc
      rcases List.mem_cons.mp hp with rfl | hp2
      · cases hc
      · exact List.mem_cons.mpr (Or.inr (ih p hp2 c hc))
    · rw [if_neg h]
      rcases hsp : splitNL cs with _ | ⟨q, qs⟩
      · exact absurd hsp (splitNL_ne_nil cs)
      · intro p hp c hc
        rcases List.mem_cons.mp hp with rfl | hp2
        · rcases List.mem_cons.mp hc with rfl | hc2
          · simp
          · exact List.mem_cons.mpr (Or.inr (ih q (by rw [hsp]; simp) c hc2))
        · exact List.mem_cons.mpr (Or.inr (ih p (by rw [hsp]; simp [hp2]) c hc))

theorem splitNL_append_cons {l : RStr} (rest : RStr) (h : '\n' ∉ l) :
    splitNL (l ++ '\n' :: rest) = l :: splitNL rest := by
  induction l with
  | nil => simp [splitNL]
  | cons c l ih =>
    have hc : c ≠ '\n' := fun he => h (he ▸ List.mem_cons_self c l)
    rw [List.cons_append]
    conv_lhs => rw [splitNL]
    rw [if_neg hc, ih fun hm => h (List.mem_cons.mpr (Or.inr hm))]

theorem rustLinesAux_cons {p : RStr} {ps : List RStr} (h : ps ≠ []) :
    rustLinesAux (p :: ps) = stripCR p :: rustLinesAux ps := by
  cases ps with
  | nil => exact absurd rfl h
  | cons q qs => rfl

theorem rustLines_joinNL {ls : List RStr} (h : ∀ l ∈ ls, '\n' ∉ l) :
    rustLines (joinNL ls) = ls.map stripCR := by
  induction ls with
  | nil => rfl
  | cons l ls ih =>
    have hl : '\n' ∉ l := h l (by simp)
    unfold rustLines joinNL
    rw [List.foldr_cons, splitNL_append_cons _ hl,
      rustLinesAux_cons (splitNL_ne_nil _), List.map_cons]
    congr 1
    exact ih fun x hx => h x (by simp [hx])

theorem mem_rustLinesAux {ps : List RStr} :
    ∀ l ∈ rustLinesAux ps, ∃ p ∈ ps, l = stripCR p ∨ l = p := by
  induction ps with
  | nil => simp [rustLinesAux]
  | cons p ps ih =>
    cases ps with
    | nil =>
      intro l hl
      unfold rustLinesAux at hl
      by_cases hp : p = []
      · rw [if_pos hp] at hl
        cases hl
      · rw [if_neg hp] at hl
        rw [List.mem_singleton] at hl
        exact ⟨p, by simp, Or.inr hl⟩
    | cons q qs =>
      intro l hl
      rw [rustLinesAux_cons (by simp)] at hl
      rcases List.mem_cons.mp hl with rfl | hl2
      · exact ⟨p, by simp, Or.inl rfl⟩
      · obtain ⟨p2, hp2, hor⟩ := ih l hl2
        exact ⟨p2, by simp [hp2], hor⟩

theorem stripCR_subset {l : RStr} : ∀ c ∈ stripCR l, c ∈ l := by
  unfold stripCR
  split
  · exact fun c hc => (List.dropLast_sublist l).subset hc
  · exact fun _ hc => hc

theorem mem_rustLines_chars {cs : RStr} :
    ∀ l ∈ rustLines cs, ∀ c ∈ l, c ∈ cs := by
  intro l hl c hc
  obtain ⟨p, hp, hor⟩ := mem_rustLinesAux l hl
  rcases hor with h1 | h1
  · exact splitNL_subset p hp c (stripCR_subset c (h1 ▸ hc))
  · exact splitNL_subset p hp c (h1 ▸ hc)

theorem mem_rustLines_no_nl {cs : RStr} : ∀ l ∈ rustLines cs, '\n' ∉ l := by
  intro l hl hmem
  obtain ⟨p, hp, hor⟩ := mem_rustLinesAux l hl
  rcases hor with h1 | h1
  · exact splitNL_no_nl p hp (stripCR_subset _ (h1 ▸ hmem))
  · exact splitNL_no_nl p hp (h1 ▸ hmem)

theorem stripCR_append_shape (a : RStr) {b : RStr} (hb : b ≠ []) :
    stripCR (a ++ b) = a ++ stripCR b := by
  unfold stripCR
  rw [List.getLast?_append]
  cases hgb : b.getLast? with
  | none => exact absurd (List.getLast?_eq_none_iff.mp hgb) hb
  | some c =>
    by_cases hc : c = '\r'
    · subst hc
      rw [if_pos (by simp), if_pos rfl, List.dropLast_append]
      rw [if_neg (by simpa [List.isEmpty_iff] using hb)]
    · rw [if_neg (by simpa using hc), if_neg (by simpa using hc)]

theorem stripCR_no_cr {l : RStr} (h : ∀ c ∈ l, c ≠ '\r') : stripCR l = l := by
  unfold stripCR
  cases hg : l.getLast? with
  | none => rfl
  | some c =>
    rw [if_neg]
    intro he
    rw [Option.some_inj] at he
    exact h c (List.mem_of_mem_getLast? hg) he

/-! ### Hex values, trimming identities, and the rewrite shape -/

theorem hex_chars {v : RStr} (hv : isValidHex v = true) :
    v.length = 6 ∧ ∀ c ∈ v, rustIsWhitespace c = false ∧ c ≠ '\n' ∧ c ≠ '\r' ∧ c ≠ '#' := by
  unfold isValidHex at hv
  rw [Bool.and_eq_true, List.all_eq_true] at hv
  refine ⟨by simpa using hv.1, fun c hc => ?_⟩
  have h := hv.2 c hc
  exact ⟨hexDigit_not_ws h, (hexDigit_ne h).1, (hexDigit_ne h).2.1, (hexDigit_ne h).2.2⟩

theorem takeWhile_ws_all (l : RStr) :
    ∀ c ∈ l.takeWhile rustIsWhitespace, rustIsWhitespace c = true :=
  fun _ hc => List.mem_takeWhile_imp hc

theorem rustTrim_of_no_ws {v : RStr} (h : ∀ c ∈ v, rustIsWhitespace c = false) :
    rustTrim v = v := by
  have h1 : rustTrimStart v = v := by
    cases v with
    | nil => rfl
    | cons c cs => exact trimStart_cons_neg _ (h c (by simp))
  unfold rustTrim
  rw [h1]
  unfold rustTrimEnd
  cases hv : v.reverse with
  | nil =>
    have hv2 : v = [] := by
      have h3 := congrArg List.reverse hv
      simpa using h3
    rw [hv2]
    rfl
  | cons c cs =>
    have hc : rustIsWhitespace c = false := h c (by rw [← List.mem_reverse, hv]; simp)
    rw [List.dropWhile_cons, hc]
    simp only [Bool.false_eq_true, if_false]
    rw [← hv, List.reverse_reverse]

theorem trimEnd_of_last_not_ws {l : RStr} {c : Char} (h : l.getLast? = some c)
    (hc : rustIsWhitespace c = false) : rustTrimEnd l = l := by
  conv_lhs => rw [← List.dropLast_append_getLast? c (Option.mem_def.mpr h)]
  rw [trimEnd_concat_neg _ hc, List.dropLast_append_getLast? c (Option.mem_def.mpr h)]

theorem stripCR_id_of_getLast {l : RStr} (h : l.getLast? ≠ some '\r') :
    stripCR l = l := by
  unfold stripCR
  rw [if_neg h]

theorem stripCR_shape_id {pre k v : RStr} (hv : v ≠ []) (h : ∀ c ∈ v, c ≠ '\r') :
    stripCR (pre ++ k ++ ' ' :: '#' :: v) = pre ++ k ++ ' ' :: '#' :: v := by
  apply stripCR_id_of_getLast
  have hshape : pre ++ k ++ ' ' :: '#' :: v = (pre ++ k ++ [' ', '#']) ++ v := by simp
  rw [hshape, List.getLast?_append_of_ne_nil _ hv, List.getLast?_eq_getLast v hv]
  intro he
  rw [Option.some_inj] at he
  exact h _ (List.getLast_mem hv) he

theorem stripCR_chunk_shape (pre k v : RStr) :
    ∃ w, stripCR (pre ++ k ++ ' ' :: '#' :: v) = pre ++ k ++ ' ' :: '#' :: w := by
  cases v with
  | nil =>
    refine ⟨[], ?_⟩
    apply stripCR_id_of_getLast
    have hshape : pre ++ k ++ [' ', '#'] = (pre ++ k ++ [' ']) ++ ['#'] := by simp
    rw [hshape, List.getLast?_append_of_ne_nil _ (by simp)]
    simp
  | cons a u =>
    refine ⟨stripCR (a :: u), ?_⟩
    have hshape : pre ++ k ++ ' ' :: '#' :: a :: u = (pre ++ k ++ [' ', '#']) ++ a :: u := by
      simp
    have hshape2 : pre ++ k ++ ' ' :: '#' :: stripCR (a :: u) =
        (pre ++ k ++ [' ', '#']) ++ stripCR (a :: u) := by simp
    rw [hshape, hshape2, stripCR_append_shape _ (by simp)]

theorem trimStart_ws_key (pre k rest : RStr)
    (hpre : ∀ c ∈ pre, rustIsWhitespace c = true) (hk : k ∈ COLOUR_KEYS) :
    rustTrimStart (pre ++ k ++ rest) = k ++ rest := by
  rw [List.append_assoc, trimStart_append_ws _ hpre]
  obtain ⟨hne, hchars⟩ := key_chars hk
  cases k with
  | nil => exact absurd rfl hne
  | cons c k2 =>
    rw [List.cons_append]
    exact trimStart_cons_neg _ (hchars c (by simp)).1

theorem takeWhile_ws_key (pre k rest : RStr)
    (hpre : ∀ c ∈ pre, rustIsWhitespace c = true) (hk : k ∈ COLOUR_KEYS) :
    (pre ++ k ++ rest).takeWhile rustIsWhitespace = pre := by
  induction pre with
  | nil =>
    obtain ⟨hne, hchars⟩ := key_chars hk
    cases k with
    | nil => exact absurd rfl hne
    | cons c k2 =>
      simp only [List.nil_append, List.cons_append, List.takeWhile_cons,
        (hchars c (by simp)).1]
      rfl
  | cons a pre ih =>
    simp only [List.cons_append, List.takeWhile_cons, hpre a (by simp), if_true]
    rw [ih fun c hc => hpre c (by simp [hc])]

theorem tsMatches_key_space_hash {k : RStr} (w : RStr) (hk : k ∈ COLOUR_KEYS) :
    tsMatches k (k ++ ' ' :: '#' :: w) = true := by
  apply tsMatches_iff.mpr
  refine ⟨List.prefix_append k _, ?_, ?_⟩
  · rw [List.drop_left]
    simp
  · rw [List.drop_left]
    have h1 : List.takeWhile (fun c => decide (c ≠ '#')) (' ' :: '#' :: w) = [' '] := rfl
    rw [h1]
    rfl

theorem rewriteLine_shape {line k : RStr} (v : RStr) (hk : k ∈ COLOUR_KEYS)
    (hp : k <+: rustTrimStart line) :
    rewriteLine line k v = line.takeWhile rustIsWhitespace ++ k ++ ' ' :: '#' :: v := by
  obtain ⟨hne, hchars⟩ := key_chars hk
  obtain ⟨rem, hrem⟩ := hp
  unfold rewriteLine
  have hdrop : (rustTrimStart line).drop k.length = rem := by
    rw [← hrem, List.drop_left]
  rw [hdrop]
  set w := line.takeWhile rustIsWhitespace with hw
  have hline : w ++ (k ++ rem) = line := by
    rw [hrem]
    exact line_decomp line
  have hlen0 : line.length = w.length + k.length + rem.length := by
    conv_lhs => rw [← hline]
    simp only [List.length_append]
    omega
  have htake : line.take (line.length - rem.length) = w ++ k := by
    have h1 : line.length - rem.length = (w ++ k).length := by
      simp only [List.length_append]
      omega
    rw [h1]
    conv_lhs => rw [← hline]
    rw [← List.append_assoc, List.take_left]
  rw [htake]
  have hlast : rustTrimEnd (w ++ k) = w ++ k := by
    conv_lhs => rw [← List.dropLast_append_getLast hne]
    rw [← List.append_assoc, trimEnd_concat_neg _ (hchars _ (List.getLast_mem hne)).1,
      List.append_assoc, List.dropLast_append_getLast hne]
  rw [hlast]

/-! ### The substitution loop, line by line -/

theorem updateLine_eq {m : PaletteMap} {l : RStr}
    (h : ∀ k, findUpdateKey l COLOUR_KEYS = some k → (pmLookup m k).isSome = true) :
    updateLine m l = some (applyLineMap m l ++ ['\n']) := by
  unfold updateLine applyLineMap
  cases hf : findUpdateKey l COLOUR_KEYS with
  | none => rfl
  | some k =>
    dsimp only
    cases hv : pmLookup m k with
    | none =>
      have h2 := h k hf
      rw [hv] at h2
      cases h2
    | some v => simp

theorem updateAll_eq {m : PaletteMap} {L : List RStr}
    (h : ∀ l ∈ L, ∀ k, findUpdateKey l COLOUR_KEYS = some k →
      (pmLookup m k).isSome = true) :
    updateAll m L = some (joinNL (L.map (applyLineMap m))) := by
  induction L with
  | nil => rfl
  | cons l L ih =>
    rw [updateAll, updateLine_eq (h l (by simp)), ih fun x hx => h x (by simp [hx])]
    rw [List.map_cons]
    unfold joinNL
    rw [List.foldr_cons]
    simp [List.append_assoc]

theorem updateAll_some_cov {m : PaletteMap} {L : List RStr} {o : RStr}
    (h : updateAll m L = some o) :
    ∀ l ∈ L, ∀ k, findUpdateKey l COLOUR_KEYS = some k →
      (pmLookup m k).isSome = true := by
  induction L generalizing o with
  | nil => simp
  | cons l L ih =>
    rw [updateAll] at h
    cases hl : updateLine m l with
    | none =>
      rw [hl] at h
      cases hA : updateAll m L <;> rw [hA] at h <;> cases h
    | some a =>
      cases hA : updateAll m L with
      | none =>
        rw [hl, hA] at h
        cases h
      | some b =>
        intro x hx k hk
        rcases List.mem_cons.mp hx with rfl | hx2
        · unfold updateLine at hl
          rw [hk] at hl
          dsimp only at hl
          cases hv : pmLookup m k with
          | none =>
            rw [hv] at hl
            cases hl
          | some v => rfl
        · exact ih hA x hx2 k hk

theorem applyLineMap_matched {m : PaletteMap} {l k v : RStr}
    (hf : findUpdateKey l COLOUR_KEYS = some k) (hv : pmLookup m k = some v) :
    applyLineMap m l = l.takeWhile rustIsWhitespace ++ k ++ ' ' :: '#' :: v := by
  unfold applyLineMap
  rw [hf]
  dsimp only
  rw [hv]
  simp only [Option.getD_some]
  exact rewriteLine_shape v (findUpdateKey_some hf).1
    (tsMatches_iff.mp (findUpdateKey_some hf).2).1

theorem applyLineMap_unmatched {m : PaletteMap} {l : RStr}
    (hf : findUpdateKey l COLOUR_KEYS = none) : applyLineMap m l = l := by
  unfold applyLineMap
  rw [hf]

theorem applyLineMap_no_nl {m : PaletteMap} {l : RStr} (hnl : '\n' ∉ l)
    (hvals : ∀ k v, pmLookup m k = some v → '\n' ∉ v)
    (hcov : ∀ k, findUpdateKey l COLOUR_KEYS = some k →
      (pmLookup m k).isSome = true) :
    '\n' ∉ applyLineMap m l := by
  cases hf : findUpdateKey l COLOUR_KEYS with
  | none =>
    rw [applyLineMap_unmatched hf]
    exact hnl
  | some k =>
    obtain ⟨v, hv⟩ := Option.isSome_iff_exists.mp (hcov k hf)
    rw [applyLineMap_matched hf hv]
    intro hmem
    rcases List.mem_append.mp hmem with h1 | h2
    · rcases List.mem_append.mp h1 with h3 | h4
      · exact hnl ((List.takeWhile_sublist _).subset h3)
      · exact ((key_chars (findUpdateKey_some hf).1).2 _ h4).2.1 rfl
    · rcases List.mem_cons.mp h2 with he | h5
      · exact absurd he (by decide)
      · rcases List.mem_cons.mp h5 with he | h6
        · exact absurd he (by decide)
        · exact hvals k v hv h6

theorem updateMatches_concat {k l : RStr} (c : Char) (hk : k ∈ COLOUR_KEYS)
    (h : updateMatches k l = true) : updateMatches k (l ++ [c]) = true := by
  obtain ⟨hp, hhash, hws⟩ := tsMatches_iff.mp h
  show tsMatches k (rustTrimStart (l ++ [c])) = true
  have hsplit : rustTrimStart (l ++ [c]) =
      if (rustTrimStart l).isEmpty = true then rustTrimStart [c]
      else rustTrimStart l ++ [c] := List.dropWhile_append
  rw [hsplit]
  cases hemp : (rustTrimStart l).isEmpty with
  | true =>
    exfalso
    rw [List.isEmpty_iff] at hemp
    rw [hemp] at hp
    exact (key_chars hk).1 (List.prefix_nil.mp hp)
  | false =>
    rw [if_neg Bool.false_ne_true]
    apply tsMatches_iff.mpr
    have hlen : k.length ≤ (rustTrimStart l).length := hp.length_le
    refine ⟨hp.trans (List.prefix_append _ _), ?_, ?_⟩
    · rw [List.drop_append_of_le_length hlen]
      exact List.mem_append.mpr (Or.inl hhash)
    · rw [List.drop_append_of_le_length hlen, takeWhile_hash_append _ hhash]
      exact hws

theorem updateMatches_stripCR_mono {k l : RStr} (hk : k ∈ COLOUR_KEYS)
    (h : updateMatches k (stripCR l) = true) : updateMatches k l = true := by
  unfold stripCR at h
  by_cases hg : l.getLast? = some '\r'
  · rw [if_pos hg] at h
    have h2 := updateMatches_concat '\r' hk h
    rwa [List.dropLast_append_getLast? _ (Option.mem_def.mpr hg)] at h2
  · rwa [if_neg hg] at h

theorem extractLineKey_stripCR_none {l : RStr}
    (h : findUpdateKey l COLOUR_KEYS = none) :
    extractLineKey (stripCR l) = none := by
  cases he : extractLineKey (stripCR l) with
  | none => rfl
  | some kv =>
    obtain ⟨k, v⟩ := kv
    obtain ⟨hm, hk, -⟩ := extract_accept_match he
    have h2 := findUpdateKey_eq_some hk (updateMatches_stripCR_mono hk hm)
    rw [h2] at h
    cases h

theorem extractLineKey_rewritten {pre k v : RStr}
    (hpre : ∀ c ∈ pre, rustIsWhitespace c = true) (hk : k ∈ COLOUR_KEYS)
    (hv : isValidHex v = true) :
    extractLineKey (pre ++ k ++ ' ' :: '#' :: v) = some (k, v) := by
  obtain ⟨hlen6, hvchars⟩ := hex_chars hv
  have hvne : v ≠ [] := by
    intro he
    rw [he] at hlen6
    cases hlen6
  have htrim : rustTrim (pre ++ k ++ ' ' :: '#' :: v) = k ++ ' ' :: '#' :: v := by
    unfold rustTrim
    rw [trimStart_ws_key pre k _ hpre hk]
    apply trimEnd_of_last_not_ws (c := v.getLast hvne)
    · have hshape : k ++ ' ' :: '#' :: v = (k ++ [' ', '#']) ++ v := by simp
      rw [hshape, List.getLast?_append_of_ne_nil _ hvne]
      exact List.getLast?_eq_getLast v hvne
    · exact (hvchars _ (List.getLast_mem hvne)).1
  obtain ⟨hkne, hkchars⟩ := key_chars hk
  have hm : tsMatches k (k ++ ' ' :: '#' :: v) = true := tsMatches_key_space_hash v hk
  have hhex2 : hexAfterHash ((k ++ ' ' :: '#' :: v).drop k.length) = v := by
    rw [List.drop_left]
    unfold hexAfterHash
    have h1 : List.dropWhile (fun c => decide (c ≠ '#')) (' ' :: '#' :: v) = '#' :: v := rfl
    rw [h1]
    show rustTrim v = v
    exact rustTrim_of_no_ws fun c hc => (hvchars c hc).1
  cases k with
  | nil => exact absurd rfl hkne
  | cons c1 k2 =>
    unfold extractLineKey
    rw [htrim, List.cons_append]
    show (if c1 = '#' then none
      else extractScan (c1 :: (k2 ++ ' ' :: '#' :: v)) COLOUR_KEYS) = some (c1 :: k2, v)
    rw [if_neg (hkchars c1 (by simp)).2.2.2, ← List.cons_append]
    rw [extractScan_finds (fun x hx => hx) hk hk hm (by rw [hhex2]; exact hv)]
    rw [hhex2]

theorem pmEq_swap_two {a b x y : RStr} (hne : a ≠ b) :
    pmEq [(a, x), (b, y)] [(b, y), (a, x)] := by
  intro k
  by_cases ha : a = k
  · subst ha
    simp [pmLookup, hne, Ne.symm hne]
  · by_cases hb : b = k
    · subst hb
      simp [pmLookup, ha, hne]
    · simp [pmLookup, ha, hb]

/-- C1: evidence of the code bug.  On the single config line
`foreground #c0caf5` with a palette map containing only `background`, the
substitution routine does not leave the recognized-but-unmapped line
untouched: the `colours_to_apply[key]` index (`colours.rs:87`) panics on the
missing key `foreground`, modelled by the `none` result — the operation
aborts and nothing is written. -/
theorem update_panics_on_unmapped_recognized_key :
    update_kitty_config_with_colours (str "foreground #c0caf5\n")
      [(str "background", str "000000")] = none := by decide

/-- C2: evidence of the code bug.  Config holds `foreground #aaaaaa` and
`color0 #111111`; the force list selects `foreground`, `background`,
`color0`.  `background` is selected but has no current value, so per the
claim it is ineligible and must keep its (defaulted `000000`) value, while
the eligible keys `foreground`, `color0` must receive a permutation of
`aaaaaa`, `111111`.  Instead the code hands `background` the shuffled value
`111111` (it consumes a slot in the shuffled-value list) and `color0` falls
off the end of the list, receiving the `000000` default: the eligible
multiset is not preserved and the ineligible key does not keep its value.
The shuffled-value list used is literally `shufflable_hex_values` itself
(the identity permutation, a possible rng outcome), as the last conjunct
records. -/
theorem shuffle_misassigns_when_selected_key_missing :
    (shuffle_current_colours (str "foreground #aaaaaa\ncolor0 #111111\n")
        [str "foreground", str "background", str "color0"] []
        [str "aaaaaa", str "111111"]).bind
      (fun M => pmLookup M (str "background")) = some (str "111111") ∧
    (shuffle_current_colours (str "foreground #aaaaaa\ncolor0 #111111\n")
        [str "foreground", str "background", str "color0"] []
        [str "aaaaaa", str "111111"]).bind
      (fun M => pmLookup M (str "color0")) = some (str "000000") ∧
    shufflableHexValues
      (extract_current_colours (str "foreground #aaaaaa\ncolor0 #111111\n"))
      [str "foreground", str "background", str "color0"] [] =
      [str "aaaaaa", str "111111"] := by decide

/-- C3: counterexample to the claim as stated.  On the spec's own example
file, applying the partial map with only `background` does not produce the
claimed text: the code panics on the `foreground` line (key absent from the
map), so the result is not the claimed output (it is `none`). -/
theorem example_substitution_not_as_claimed :
    ¬ (update_kitty_config_with_colours
        (str "background            #1a1b26\nforeground #c0caf5\n")
        [(str "background", str "000000")] =
      some (str "background            #000000\nforeground #c0caf5\n")) := by decide

/-- C4: counterexample to the claim as stated: `color1` is a proper prefix
of `color10`, and both are among the 19 keys. -/
theorem color1_is_proper_prefix_of_color10 :
    str "color1" ∈ COLOUR_KEYS ∧ str "color10" ∈ COLOUR_KEYS ∧
    str "color1" ≠ str "color10" ∧
    (str "color1").isPrefixOf (str "color10") = true := by decide

/-- C5: counterexample to the round-trip claim as stated: on an empty file,
substitution with a one-key palette succeeds and writes the empty file, but
extraction from the result is empty, not the palette. -/
theorem roundtrip_fails_on_empty_file :
    update_kitty_config_with_colours (str "") [(str "background", str "000000")] =
      some (str "") ∧
    ¬ pmEq (extract_current_colours (str "")) [(str "background", str "000000")] := by
  refine ⟨by decide, fun h => ?_⟩
  exact absurd (h (str "background")) (by decide)

/-- C6: with key and hex lists of unequal length, the explicit-set
operation reports the user error and aborts with no write (spec-modelled:
the handler is absent from `src/`). -/
theorem set_colour_length_mismatch_aborts (keys hexes : List RStr)
    (h : keys.length ≠ hexes.length) :
    set_colour_operation keys hexes = none := by
  unfold set_colour_operation
  simp [h]

/-- Witness for the explicit-set length-mismatch theorem: 2 keys, 3 hex values. -/
theorem set_colour_length_mismatch_aborts_witness :
    ([str "foreground", str "background"].length ≠
      [str "111111", str "222222", str "333333"].length) ∧
    set_colour_operation [str "foreground", str "background"]
      [str "111111", str "222222", str "333333"] = none :=
  ⟨by decide, set_colour_length_mismatch_aborts _ _ (by decide)⟩

/-- C7: whenever fewer than two keys are eligible for shuffling (selected
by the filters and holding a known current value), the shuffle operation
warns and returns successfully without writing the config file, for every
config content, filter pair and shuffled-value list. -/
theorem shuffle_noop_when_fewer_than_two_eligible
    (content : RStr) (forced excluded shuffledVals : List RStr)
    (h : (shufflableKeys (extract_current_colours content) forced excluded).length < 2) :
    shuffle_current_colours content forced excluded shuffledVals = none := by
  unfold shuffle_current_colours
  simp [h]

/-- Witness for the shuffle no-op theorem: one config line, its key excluded. -/
theorem shuffle_noop_when_fewer_than_two_eligible_witness :
    (shufflableKeys (extract_current_colours (str "background #1a1b26\n"))
      [] [str "background"]).length < 2 ∧
    shuffle_current_colours (str "background #1a1b26\n") [] [str "background"] [] = none :=
  ⟨by decide, shuffle_noop_when_fewer_than_two_eligible _ _ _ _ (by decide)⟩

/-- C8: force-list and exception-list selection are complementary over the
19-key universe: forcing exactly the keys A and B selects, for every key of
the universe, the same participation as excluding every other key. -/
theorem force_exception_complementary (A B k : RStr) (hk : k ∈ COLOUR_KEYS) :
    selectedKey [A, B] [] k =
      selectedKey []
        (COLOUR_KEYS.filter (fun j => !(decide (j = A) || decide (j = B)))) k := by
  have h1 : ∀ (l : List RStr) (x : RStr), l.contains x = decide (x ∈ l) := fun l x =>
    List.elem_eq_mem x l
  simp only [selectedKey, List.isEmpty_cons, List.isEmpty_nil, if_false, if_true,
    Bool.false_eq_true, h1]
  by_cases hA : k = A
  · simp [hA, List.mem_filter]
  · by_cases hB : k = B
    · simp [hB, List.mem_filter]
    · simp [hA, hB, List.mem_filter, hk]

/-- Witness for the complementarity theorem at concrete keys. -/
theorem force_exception_complementary_witness :
    (str "cursor") ∈ COLOUR_KEYS ∧
    selectedKey [str "foreground", str "background"] [] (str "cursor") =
      selectedKey []
        (COLOUR_KEYS.filter (fun j =>
          !(decide (j = str "foreground") || decide (j = str "background"))))
        (str "cursor") :=
  ⟨by decide, force_exception_complementary _ _ _ (by decide)⟩

/-- C3 (amended): on the spec's example file, extraction yields exactly
the map with `background = 1a1b26` and `foreground = c0caf5`; substitution
with the completed map (`background = 000000`, `foreground = c0caf5`)
succeeds and yields `background #000000\nforeground #c0caf5\n` — the run
of spaces between the key and `#` collapses to a single space (the code
rewrites everything after the key, trimming the prefix), and the partial
map of the original claim instead panics on the `foreground` line. -/
theorem example_extraction_and_substitution :
    pmEq (extract_current_colours
        (str "background            #1a1b26\nforeground #c0caf5\n"))
      [(str "background", str "1a1b26"), (str "foreground", str "c0caf5")] ∧
    update_kitty_config_with_colours
        (str "background            #1a1b26\nforeground #c0caf5\n")
        [(str "background", str "000000"), (str "foreground", str "c0caf5")] =
      some (str "background #000000\nforeground #c0caf5\n") := by
  refine ⟨?_, by decide⟩
  have he : extract_current_colours
      (str "background            #1a1b26\nforeground #c0caf5\n") =
      [(str "foreground", str "c0caf5"), (str "background", str "1a1b26")] := by decide
  rw [he]
  exact pmEq_swap_two (by decide)

/-- C4 (amended): the 19 keys are not mutually prefix-free — the proper
prefix pairs among them are exactly `color1` before each of
`color10`..`color15` — yet the line scan stays unambiguous: at most one
key can pass the full match test (prefix, then only whitespace up to a
`#`) on any given line, because the character following `color1` inside a
longer key is a digit, which is neither whitespace nor `#`. -/
theorem key_prefix_pairs_and_scan_unambiguity :
    (∀ k1 ∈ COLOUR_KEYS, ∀ k2 ∈ COLOUR_KEYS, k1 ≠ k2 →
      (k1.isPrefixOf k2 = true ↔ k1 = str "color1" ∧
        k2 ∈ [str "color10", str "color11", str "color12", str "color13",
          str "color14", str "color15"])) ∧
    (∀ t k1 k2, k1 ∈ COLOUR_KEYS → k2 ∈ COLOUR_KEYS →
      tsMatches k1 t = true → tsMatches k2 t = true → k1 = k2) := by
  exact ⟨by decide, fun t k1 k2 h1 h2 m1 m2 => tsMatches_unique h1 h2 m1 m2⟩

/-- Witness for the key-prefix characterization at the pair `color1`, `color10`. -/
theorem key_prefix_pairs_witness :
    (str "color1").isPrefixOf (str "color10") = true ↔
      str "color1" = str "color1" ∧
        str "color10" ∈ [str "color10", str "color11", str "color12", str "color13",
          str "color14", str "color15"] :=
  key_prefix_pairs_and_scan_unambiguity.1 (str "color1") (by decide) (str "color10")
    (by decide) (by decide)

/-- C10: substitution's match predicate is strictly weaker than
extraction's acceptance: every line from which extraction records a value
is selected for rewriting by substitution, while `background #zzzzzz` — a
known key, whitespace, `#`, then text that is not six hex digits — is
rewritten by substitution but ignored by extraction. -/
theorem extract_accept_implies_update_match :
    (∀ line k v, extractLineKey line = some (k, v) →
      (findUpdateKey line COLOUR_KEYS).isSome = true) ∧
    (findUpdateKey (str "background #zzzzzz") COLOUR_KEYS).isSome = true ∧
    extractLineKey (str "background #zzzzzz") = none := by
  refine ⟨?_, by decide, by decide⟩
  intro line k v h
  obtain ⟨hm, hk, -⟩ := extract_accept_match h
  rw [findUpdateKey_eq_some hk hm]
  rfl

/-- Witness for the extraction-implies-substitution-match theorem. -/
theorem extract_accept_implies_update_match_witness :
    (findUpdateKey (str "background #1a1b26") COLOUR_KEYS).isSome = true :=
  extract_accept_implies_update_match.1 (str "background #1a1b26")
    (str "background") (str "1a1b26") (by decide)

/-- C9: counterexample to byte-identical idempotence as stated, in two
independent ways.  First, on the text `x\r` (no trailing newline) with the
empty map: the first application emits `x\r\n`, and the second — because
Rust `lines()` strips the `\r\n` ending — emits `x\n`, which differs.
Second, a palette value containing `\n` spills a fresh line into the file,
which the second application duplicates. -/
theorem idempotence_fails_on_cr_and_newline_values :
    (update_kitty_config_with_colours (str "x\r") [] = some (str "x\r\n") ∧
      update_kitty_config_with_colours (str "x\r\n") [] = some (str "x\n") ∧
      str "x\n" ≠ str "x\r\n") ∧
    (update_kitty_config_with_colours (str "background #111111")
        [(str "background", str "x\ny")] = some (str "background #x\ny\n") ∧
      update_kitty_config_with_colours (str "background #x\ny\n")
        [(str "background", str "x\ny")] = some (str "background #x\ny\ny\n") ∧
      str "background #x\ny\ny\n" ≠ str "background #x\ny\n") := by decide


/-! ### Round-trip and idempotence -/

theorem pmLookup_some_mem {P : PaletteMap} {q v : RStr} (h : pmLookup P q = some v) :
    (q, v) ∈ P := by
  induction P with
  | nil => cases h
  | cons kv P ih =>
    obtain ⟨k0, v0⟩ := kv
    rw [pmLookup] at h
    by_cases hk : k0 = q
    · rw [if_pos hk] at h
      rw [Option.some_inj] at h
      rw [← hk, ← h]
      exact List.mem_cons_self _ _
    · rw [if_neg hk] at h
      exact List.mem_cons.mpr (Or.inr (ih h))

theorem foldl_extract_lookup {m : PaletteMap} {L : List RStr}
    (hcov : ∀ l ∈ L, ∀ k, findUpdateKey l COLOUR_KEYS = some k →
      (pmLookup m k).isSome = true)
    (hhex : ∀ l ∈ L, ∀ k, findUpdateKey l COLOUR_KEYS = some k →
      ∀ v, pmLookup m k = some v → isValidHex v = true) :
    ∀ (acc : PaletteMap) (q : RStr),
      pmLookup (List.foldl extractLine acc
          (L.map fun l => stripCR (applyLineMap m l))) q =
        if L.any (fun l => findUpdateKey l COLOUR_KEYS == some q) then pmLookup m q
        else pmLookup acc q := by
  induction L with
  | nil =>
    intro acc q
    simp
  | cons l L ih =>
    intro acc q
    rw [List.map_cons, List.foldl_cons, List.any_cons]
    have ih2 := ih (fun x hx => hcov x (by simp [hx]))
      fun x hx => hhex x (by simp [hx])
    cases hf : findUpdateKey l COLOUR_KEYS with
    | none =>
      have hstep : extractLine acc (stripCR (applyLineMap m l)) = acc := by
        unfold extractLine
        rw [applyLineMap_unmatched hf, extractLineKey_stripCR_none hf]
      rw [hstep, ih2]
      have hb : ((none : Option RStr) == some q) = false := rfl
      rw [hb, Bool.false_or]
    | some k =>
      obtain ⟨v, hv⟩ := Option.isSome_iff_exists.mp (hcov l (by simp) k hf)
      have hvx : isValidHex v = true := hhex l (by simp) k hf v hv
      obtain ⟨hlen6, hvchars⟩ := hex_chars hvx
      have hvne : v ≠ [] := by
        intro he
        rw [he] at hlen6
        cases hlen6
      have happ := applyLineMap_matched hf hv
      have hstrip : stripCR (applyLineMap m l) = applyLineMap m l := by
        rw [happ]
        exact stripCR_shape_id hvne fun c hc => (hvchars c hc).2.2.1
      have hext : extractLineKey (stripCR (applyLineMap m l)) = some (k, v) := by
        rw [hstrip, happ]
        exact extractLineKey_rewritten (takeWhile_ws_all l) (findUpdateKey_some hf).1 hvx
      have hstep : extractLine acc (stripCR (applyLineMap m l)) = (k, v) :: acc := by
        unfold extractLine
        rw [hext]
      rw [hstep, ih2]
      by_cases hLq : L.any (fun l => findUpdateKey l COLOUR_KEYS == some q) = true
      · rw [if_pos hLq, hLq, Bool.or_true, if_pos rfl]
      · rw [Bool.not_eq_true] at hLq
        rw [hLq, Bool.or_false, if_neg Bool.false_ne_true]
        by_cases hkq : k = q
        · subst hkq
          rw [pmLookup, if_pos rfl]
          have hbeq : ((some k : Option RStr) == some k) = true := by simp
          rw [hbeq, if_pos rfl, hv]
        · rw [pmLookup, if_neg hkq]
          have hbeq : ((some k : Option RStr) == some q) = false := by simp [hkq]
          rw [hbeq, if_neg Bool.false_ne_true]

/-- C5 (amended): the round trip holds on every file text whose
substitution-matched lines all carry keys of the palette P (so the routine
does not panic) and whose matched keys cover every key of P (so every entry
gets written): with P drawn from the 19 keys and carrying valid 6-hex-digit
values, extracting from the updated text yields exactly P.  The original
unrestricted claim fails on files that lack a line for some key of P. -/
theorem roundtrip_extract_after_update (text : RStr) (P : PaletteMap)
    (_hsub : P.all (fun kv => COLOUR_KEYS.contains kv.1) = true)
    (hhex : P.all (fun kv => isValidHex kv.2) = true)
    (hcov : (rustLines text).all (fun l =>
      match findUpdateKey l COLOUR_KEYS with
      | some k => (pmLookup P k).isSome
      | none => true) = true)
    (hall : P.all (fun kv => (rustLines text).any
      fun l => findUpdateKey l COLOUR_KEYS == some kv.1) = true) :
    ∃ out, update_kitty_config_with_colours text P = some out ∧
      pmEq (extract_current_colours out) P := by
  have hcov2 : ∀ l ∈ rustLines text, ∀ k, findUpdateKey l COLOUR_KEYS = some k →
      (pmLookup P k).isSome = true := by
    intro l hl k hk
    have h2 := List.all_eq_true.mp hcov l hl
    rw [hk] at h2
    exact h2
  have hhex2 : ∀ l ∈ rustLines text, ∀ k, findUpdateKey l COLOUR_KEYS = some k →
      ∀ v, pmLookup P k = some v → isValidHex v = true := by
    intro l hl k hk v hv
    exact List.all_eq_true.mp hhex (k, v) (pmLookup_some_mem hv)
  refine ⟨joinNL ((rustLines text).map (applyLineMap P)), updateAll_eq hcov2, ?_⟩
  unfold extract_current_colours
  have hnl : ∀ l2 ∈ (rustLines text).map (applyLineMap P), '\n' ∉ l2 := by
    intro l2 hl2
    obtain ⟨l, hl, he⟩ := List.mem_map.mp hl2
    rw [← he]
    refine applyLineMap_no_nl (mem_rustLines_no_nl l hl) ?_ fun k hk => hcov2 l hl k hk
    intro k v hv hmem
    have hx := List.all_eq_true.mp hhex (k, v) (pmLookup_some_mem hv)
    exact ((hex_chars hx).2 _ hmem).2.1 rfl
  rw [rustLines_joinNL hnl]
  have hmm : ((rustLines text).map (applyLineMap P)).map stripCR =
      (rustLines text).map fun l => stripCR (applyLineMap P l) := by
    rw [List.map_map]
    rfl
  rw [hmm]
  intro q
  rw [foldl_extract_lookup hcov2 hhex2 [] q]
  by_cases hq : (rustLines text).any (fun l => findUpdateKey l COLOUR_KEYS == some q) = true
  · rw [if_pos hq]
  · rw [Bool.not_eq_true] at hq
    rw [hq, if_neg Bool.false_ne_true]
    cases hPq : pmLookup P q with
    | none => rfl
    | some v =>
      exfalso
      have hm := List.all_eq_true.mp hall (q, v) (pmLookup_some_mem hPq)
      have hm2 : (rustLines text).any
          (fun l => findUpdateKey l COLOUR_KEYS == some q) = true := hm
      rw [hq] at hm2
      cases hm2

/-- Witness for the amended round-trip theorem at a concrete file and palette. -/
theorem roundtrip_extract_after_update_witness :
    ((rustLines (str "background #1a1b26\n")).all (fun l =>
      match findUpdateKey l COLOUR_KEYS with
      | some k => (pmLookup [(str "background", str "000000")] k).isSome
      | none => true) = true) ∧
    ∃ out, update_kitty_config_with_colours (str "background #1a1b26\n")
        [(str "background", str "000000")] = some out ∧
      pmEq (extract_current_colours out) [(str "background", str "000000")] :=
  ⟨by decide, roundtrip_extract_after_update _ _ (by decide) (by decide)
    (by decide) (by decide)⟩

theorem updateLine_reapply {m : PaletteMap} {l : RStr} (hnr : '\r' ∉ l)
    (hcov : ∀ k, findUpdateKey l COLOUR_KEYS = some k →
      (pmLookup m k).isSome = true) :
    updateLine m (stripCR (applyLineMap m l)) = some (applyLineMap m l ++ ['\n']) := by
  cases hf : findUpdateKey l COLOUR_KEYS with
  | none =>
    rw [applyLineMap_unmatched hf, stripCR_no_cr fun c hc he => hnr (he ▸ hc)]
    unfold updateLine
    rw [hf]
  | some k =>
    obtain ⟨v, hv⟩ := Option.isSome_iff_exists.mp (hcov k hf)
    have hkK := (findUpdateKey_some hf).1
    have happ := applyLineMap_matched hf hv
    obtain ⟨w, hw⟩ := stripCR_chunk_shape (l.takeWhile rustIsWhitespace) k v
    rw [happ, hw]
    have hmatch : updateMatches k
        (l.takeWhile rustIsWhitespace ++ k ++ ' ' :: '#' :: w) = true := by
      unfold updateMatches
      rw [trimStart_ws_key _ _ _ (takeWhile_ws_all l) hkK]
      exact tsMatches_key_space_hash w hkK
    have hp2 : k <+:
        rustTrimStart (l.takeWhile rustIsWhitespace ++ k ++ ' ' :: '#' :: w) := by
      rw [trimStart_ws_key _ _ _ (takeWhile_ws_all l) hkK]
      exact List.prefix_append _ _
    unfold updateLine
    rw [findUpdateKey_eq_some hkK hmatch]
    dsimp only
    rw [hv]
    dsimp only
    rw [rewriteLine_shape v hkK hp2, takeWhile_ws_key _ _ _ (takeWhile_ws_all l) hkK]

theorem updateAll_reapply {m : PaletteMap} {L : List RStr}
    (hnr : ∀ l ∈ L, '\r' ∉ l)
    (hcov : ∀ l ∈ L, ∀ k, findUpdateKey l COLOUR_KEYS = some k →
      (pmLookup m k).isSome = true) :
    updateAll m (L.map fun l => stripCR (applyLineMap m l)) =
      some (joinNL (L.map (applyLineMap m))) := by
  induction L with
  | nil => rfl
  | cons l L ih =>
    rw [List.map_cons, List.map_cons, updateAll,
      updateLine_reapply (hnr l (by simp)) (hcov l (by simp)),
      ih (fun x hx => hnr x (by simp [hx])) fun x hx => hcov x (by simp [hx])]
    unfold joinNL
    rw [List.foldr_cons]
    simp [List.append_assoc]

/-- C9 (amended): substitution is idempotent on every input on which the
first application succeeds, provided the text contains no carriage return
and no palette value contains a newline; the counterexamples show both
provisos are necessary. -/
theorem update_idempotent_on_clean_input (text : RStr) (P : PaletteMap) (out : RStr)
    (htext : text.all (fun c => !(c == '\r')) = true)
    (hvals : P.all (fun kv => kv.2.all fun c => !(c == '\n')) = true)
    (hsucc : update_kitty_config_with_colours text P = some out) :
    update_kitty_config_with_colours out P = some out := by
  have hcov := updateAll_some_cov hsucc
  have hvals2 : ∀ k v, pmLookup P k = some v → '\n' ∉ v := by
    intro k v hv hmem
    have h2 := List.all_eq_true.mp hvals (k, v) (pmLookup_some_mem hv)
    have h3 := List.all_eq_true.mp h2 '\n' hmem
    simp at h3
  have hout : out = joinNL ((rustLines text).map (applyLineMap P)) := by
    have h2 := updateAll_eq hcov
    have h3 : some out = some (joinNL ((rustLines text).map (applyLineMap P))) :=
      hsucc.symm.trans h2
    exact Option.some_inj.mp h3
  subst hout
  have hnr : ∀ l ∈ rustLines text, '\r' ∉ l := by
    intro l hl hmem
    have h2 := List.all_eq_true.mp htext '\r' (mem_rustLines_chars l hl '\r' hmem)
    simp at h2
  have hnl : ∀ l2 ∈ (rustLines text).map (applyLineMap P), '\n' ∉ l2 := by
    intro l2 hl2
    obtain ⟨l, hl, he⟩ := List.mem_map.mp hl2
    rw [← he]
    exact applyLineMap_no_nl (mem_rustLines_no_nl l hl) hvals2 (hcov l hl)
  show updateAll P (rustLines (joinNL ((rustLines text).map (applyLineMap P)))) = _
  rw [rustLines_joinNL hnl]
  have hmm : ((rustLines text).map (applyLineMap P)).map stripCR =
      (rustLines text).map fun l => stripCR (applyLineMap P l) := by
    rw [List.map_map]
    rfl
  rw [hmm]
  exact updateAll_reapply hnr hcov

/-- Witness for the amended idempotence theorem at a concrete input. -/
theorem update_idempotent_witness :
    update_kitty_config_with_colours (str "background #111111\n")
        [(str "background", str "000000")] = some (str "background #000000\n") ∧
    update_kitty_config_with_colours (str "background #000000\n")
        [(str "background", str "000000")] = some (str "background #000000\n") :=
  ⟨by decide, update_idempotent_on_clean_input (str "background #111111\n")
    [(str "background", str "000000")] (str "background #000000\n")
    (by decide) (by decide) (by decide)⟩

end Rtc
